import Mathlib

/-!
Verification development for the filter-driven reactive data orchestration
layer of the ai-support-sales-react frontend.

The definitions below are shallow embeddings of the JavaScript source:

* `normalizeTopFeatures` embeds the payload handling of `RankingExplainer`
  (frontend/src/pages/ProfileSections.jsx, second component): the classifier
  `top_features.startsWith('{')`, the structured branch
  (`JSON.parse` / `Object.entries` / stable sort by descending impact /
  `slice(0, 5)`) and the flat branch (`split(',')` / `trim` / impact 0).
* `effectiveMode` embeds the scoring-mode resolution of `RankingPage.jsx`
  (`isUsingHeuristic = !isModelAvailable || forceHeuristic`).
* `activeCompanies`, `reconcile` and the action step relation embed the
  company catalog derivation and the consistency `useEffect` of
  `Layout` (src/unnamed/part_006) together with the zustand stores.
* `handleLoadData` embeds the load/log pipeline of `Layout`.
* `dependentQueries` and the cache-key functions embed the `useQuery`
  configurations of `Layout`, `RankingPage` and `DashboardPage`.

JavaScript strings are modelled as Lean `String` and character lists.
JSON numbers are modelled as exact decimals (`JsonNum`, an integer
mantissa with a power-of-ten denominator, interpreted in `ℚ` by
`JsonNum.toRat`); on the short decimal literals the backend emits, the
ordering of the exact decimals coincides with the ordering of the
IEEE doubles JavaScript would compare.  The JSON-object parser below
covers the encoding the backend actually emits for `top_features` (an
object whose keys are plain feature-name strings without escape sequences
and whose values are decimal number literals without exponents); on that
common subset it agrees with `JSON.parse` including its rejection of
malformed text and of trailing garbage.
-/

/-- JSON whitespace characters (also the characters relevant for the
String.prototype.trim calls on feature tokens). -/
def isWsChar (c : Char) : Bool :=
  c = ' ' || c = '\t' || c = '\n' || c = '\r'

/-- Drop leading JSON whitespace. -/
def skipWs (cs : List Char) : List Char :=
  cs.dropWhile isWsChar

/-- JavaScript String.prototype.trim on a character list: drop leading and
trailing whitespace. -/
def jsTrim (cs : List Char) : List Char :=
  ((cs.dropWhile isWsChar).reverse.dropWhile isWsChar).reverse

/-- Helper for `jsSplitComma`: accumulate the current token (reversed). -/
def splitCommaAux : List Char → List Char → List (List Char)
  | [], acc => [acc.reverse]
  | c :: cs, acc =>
      if c = ',' then acc.reverse :: splitCommaAux cs []
      else splitCommaAux cs (c :: acc)

/-- JavaScript String.prototype.split(',') on a character list: the empty
string yields one empty token, and separators at the ends yield empty
tokens, exactly as in JavaScript. -/
def jsSplitComma (cs : List Char) : List (List Char) :=
  splitCommaAux cs []

/-- The classifier used by RankingExplainer (ProfileSections.jsx line 179):
`rowData.top_features.startsWith('{')`.  Note that the raw text is NOT
trimmed before the test. -/
def startsWithBrace (s : String) : Bool :=
  match s.data with
  | [] => false
  | c :: _ => c = '{'

/-- Numeric value of a list of decimal digit characters. -/
def digitsToNat (ds : List Char) : Nat :=
  ds.foldl (fun acc c => acc * 10 + (c.toNat - '0'.toNat)) 0

/-- An exact decimal number: the value is `mant / 10 ^ exp`.  This is the
model of the JSON number literals appearing as impact values. -/
structure JsonNum where
  mant : Int
  exp : Nat
deriving DecidableEq, Repr

/-- The rational value of an exact decimal. -/
def JsonNum.toRat (d : JsonNum) : ℚ :=
  (d.mant : ℚ) / (10 ^ d.exp : ℚ)

/-- Numeric comparison of two exact decimals by cross multiplication;
this is the order `≤` on their values. -/
def JsonNum.le (a b : JsonNum) : Prop :=
  a.mant * 10 ^ b.exp ≤ b.mant * 10 ^ a.exp

instance (a b : JsonNum) : Decidable (JsonNum.le a b) := by
  unfold JsonNum.le
  infer_instance

/-- Parse a JSON string literal (no escape sequences, which the feature-name
keys emitted by the backend never contain). -/
def parseJsonString : List Char → Option (String × List Char)
  | '"' :: rest =>
      let name := rest.takeWhile (fun c => c ≠ '"')
      match rest.dropWhile (fun c => c ≠ '"') with
      | '"' :: r => some (String.mk name, r)
      | _ => none
  | _ => none

/-- Parse a JSON number literal (optional minus sign, mandatory integer
digits, optional fraction; the impact values emitted by the backend carry
no exponent part).  The value is returned as an exact decimal. -/
def parseJsonNumber (cs : List Char) : Option (JsonNum × List Char) :=
  match cs with
  | '-' :: cs₁ =>
      match parseJsonNumberCore cs₁ with
      | some (q, rest) => some (⟨-q.mant, q.exp⟩, rest)
      | none => none
  | _ => parseJsonNumberCore cs
where
  /-- Unsigned decimal: digits, optionally followed by a fraction part. -/
  parseJsonNumberCore (cs : List Char) : Option (JsonNum × List Char) :=
    let intDigits := cs.takeWhile Char.isDigit
    let cs₁ := cs.dropWhile Char.isDigit
    if intDigits.isEmpty then none
    else
      match cs₁ with
      | '.' :: r =>
          let fracDigits := r.takeWhile Char.isDigit
          if fracDigits.isEmpty then none
          else
            some (⟨(digitsToNat intDigits * 10 ^ fracDigits.length +
                      digitsToNat fracDigits : Nat), fracDigits.length⟩,
                  r.dropWhile Char.isDigit)
      | _ => some (⟨(digitsToNat intDigits : Nat), 0⟩, cs₁)

/-- Parse the member list of a JSON object after the opening brace, in
textual order.  The fuel is an upper bound on the number of members; each
call consumes at least the key and one separator so the input length
suffices. -/
def parseJsonPairs : Nat → List Char → Option (List (String × JsonNum) × List Char)
  | 0, _ => none
  | fuel + 1, cs =>
      match parseJsonString (skipWs cs) with
      | none => none
      | some (key, cs₁) =>
          match skipWs cs₁ with
          | ':' :: cs₂ =>
              match parseJsonNumber (skipWs cs₂) with
              | none => none
              | some (v, cs₃) =>
                  match skipWs cs₃ with
                  | ',' :: cs₄ =>
                      match parseJsonPairs fuel cs₄ with
                      | some (rest, cs₅) => some ((key, v) :: rest, cs₅)
                      | none => none
                  | '}' :: cs₄ => some ([(key, v)], cs₄)
                  | _ => none
          | _ => none

/-- JSON.parse restricted to the encoding the backend emits for
`top_features`: an object whose values are numbers.  Returns the
member list in textual order (the order Object.entries reports for
non-index string keys), or `none` exactly when JSON.parse would throw. -/
def parseJsonObject (s : String) : Option (List (String × JsonNum)) :=
  match skipWs s.data with
  | '{' :: cs₁ =>
      match skipWs cs₁ with
      | '}' :: cs₂ => if (skipWs cs₂).isEmpty then some [] else none
      | _ =>
          match parseJsonPairs (cs₁.length + 1) cs₁ with
          | some (pairs, rest) =>
              if (skipWs rest).isEmpty then some pairs else none
          | none => none
  | _ => none

/-- One entry of the normalized explainability list. -/
structure FeatureEntry where
  name : String
  impact : JsonNum
deriving DecidableEq, Repr

/-- Stable sort by descending impact: the embedding of
`.sort((a, b) => b.impact - a.impact)`.  Array.prototype.sort is stable and
with this comparator places an element before another exactly when its
impact is strictly larger, which is what `insertionSort` with the
reflexive relation below computes. -/
def sortByImpactDesc (l : List FeatureEntry) : List FeatureEntry :=
  l.insertionSort (fun a b => JsonNum.le b.impact a.impact)

/-- The Explainability Normalizer: the payload handling of
RankingExplainer (ProfileSections.jsx lines 177-191).  The argument is
`none` when `rowData.top_features` is absent or not a string. -/
def normalizeTopFeatures (raw : Option String) : List FeatureEntry :=
  match raw with
  | none => []
  | some s =>
      if startsWithBrace s then
        match parseJsonObject s with
        | some pairs =>
            (sortByImpactDesc (pairs.map fun p => ⟨p.1, p.2⟩)).take 5
        | none => []
      else
        (jsSplitComma s.data).map fun tok => ⟨String.mk (jsTrim tok), ⟨0, 0⟩⟩

/-- The two scoring engines. -/
inductive ScoringMode where
  | model
  | heuristic
deriving DecidableEq, Repr

/-- The fallback switch of RankingPage.jsx line 36:
`isUsingHeuristic = !isModelAvailable || forceHeuristic`. -/
def isUsingHeuristic (modelAvailable forceHeuristic : Bool) : Bool :=
  !modelAvailable || forceHeuristic

/-- The effective scoring mode derived from the fallback switch. -/
def effectiveMode (modelAvailable forceHeuristic : Bool) : ScoringMode :=
  if isUsingHeuristic modelAvailable forceHeuristic then .heuristic
  else .model

/-- Lexicographic comparison of character lists, the order JavaScript's
default Array.prototype.sort comparator induces on the plain strings
appearing as company names. -/
def lexLeChars : List Char → List Char → Bool
  | [], _ => true
  | _ :: _, [] => false
  | x :: xs, y :: ys => if x = y then lexLeChars xs ys else decide (x < y)

/-- Lexicographic order on strings as a boolean comparator. -/
def strLeb (a b : String) : Bool :=
  lexLeChars a.data b.data

/-- Helper for `jsSetDedup`: keep each string whose first occurrence this
is, tracking the strings already seen. -/
def jsSetDedupAux (seen : List String) : List String → List String
  | [] => []
  | x :: xs =>
      if x ∈ seen then jsSetDedupAux seen xs
      else x :: jsSetDedupAux (x :: seen) xs

/-- The deduplication performed by `[...new Set(names)]`: keep the first
occurrence of each string, in order. -/
def jsSetDedup (l : List String) : List String :=
  jsSetDedupAux [] l

/-- One record of the `customers` array returned by the
`/data/customers` endpoint; only the `name` field is read by Layout. -/
structure Customer where
  name : String
deriving DecidableEq, Repr

/-- The company option list of Layout (src/unnamed/part_006 lines 39-41):
`filteredCustomersData?.customers && length > 0 ? ['All',
...[...new Set(names)].sort()] : ['All']`.  The argument is `none` while
the company-catalog query has not resolved. -/
def activeCompanies (customers : Option (List Customer)) : List String :=
  match customers with
  | some cs =>
      if cs.length > 0 then
        "All" :: List.insertionSort (fun a b => strLeb a b = true)
          (jsSetDedup (cs.map Customer.name))
      else ["All"]
  | none => ["All"]

/-- The global filter store (useFilterStore): the four filter dimensions,
each initialized to the sentinel value. -/
structure Filters where
  region : String
  country : String
  equipmentType : String
  companyName : String
deriving DecidableEq, Repr

/-- The initial filter state of useFilterStore. -/
def initFilters : Filters :=
  ⟨"All", "All", "All", "All"⟩

/-- The backend data visible to Layout: the three option lists and the
customers endpoint as a function of the three upstream filters (`none`
models an unresolved company-catalog query). -/
structure Backend where
  regions : List String
  countries : List String
  equipments : List String
  customers : String → String → String → Option (List Customer)

/-- The company option list for the current filter state. -/
def companiesFor (B : Backend) (s : Filters) : List String :=
  activeCompanies (B.customers s.region s.country s.equipmentType)

/-- The consistency effect of Layout (src/unnamed/part_006 lines 44-48):
`if (companyName !== 'All' && activeCompanies.length > 1 &&
!activeCompanies.includes(companyName)) setCompanyName('All')`. -/
def reconcile (B : Backend) (s : Filters) : Filters :=
  if s.companyName ≠ "All" ∧ (companiesFor B s).length > 1 ∧
      s.companyName ∉ companiesFor B s then
    { s with companyName := "All" }
  else s

/-- A user interaction with one of the four filter dropdowns. -/
inductive FilterAction where
  | setRegion (v : String)
  | setCountry (v : String)
  | setEquipmentType (v : String)
  | setCompanyName (v : String)
deriving DecidableEq, Repr

/-- The store write performed by each dropdown's onChange handler. -/
def applyAction (a : FilterAction) (s : Filters) : Filters :=
  match a with
  | .setRegion v => { s with region := v }
  | .setCountry v => { s with country := v }
  | .setEquipmentType v => { s with equipmentType := v }
  | .setCompanyName v => { s with companyName := v }

/-- An action is available exactly when its value is one of the options the
corresponding select element offers: the fixed 'All' option plus the
fetched option list for the three upstream filters, and precisely
`activeCompanies` for the company dropdown. -/
def validAction (B : Backend) (s : Filters) : FilterAction → Prop
  | .setRegion v => v ∈ "All" :: B.regions
  | .setCountry v => v ∈ "All" :: B.countries
  | .setEquipmentType v => v ∈ "All" :: B.equipments
  | .setCompanyName v => v ∈ companiesFor B s

/-- One step of the filter subsystem: a dropdown interaction followed by the
consistency effect, which React runs before the next interaction can
occur. -/
def filterStep (B : Backend) (s s' : Filters) : Prop :=
  ∃ a, validAction B s a ∧ s' = reconcile B (applyAction a s)

/-- The states the filter subsystem can reach from the initial store
state under a fixed backend. -/
def ReachableFilters (B : Backend) (s : Filters) : Prop :=
  Relation.ReflTransGen (filterStep B) initFilters s

/-- The data store slice touched by the load pipeline. -/
structure DataState where
  dataLoaded : Bool
  logs : List String
deriving DecidableEq, Repr

/-- The useDataStore addLog mutator: `logs: [...state.logs, log]`. -/
def addLog (s : DataState) (line : String) : DataState :=
  { s with logs := s.logs ++ [line] }

/-- The useDataStore clearLogs mutator. -/
def clearLogs (s : DataState) : DataState :=
  { s with logs := [] }

/-- The completion of one `loadData` invocation: the server reply
(success flag with logs, or failure flag with a message) or a thrown
error with its message. -/
inductive LoadOutcome where
  | success (lines : List String)
  | failed (message : String)
  | thrown (message : String)
deriving DecidableEq, Repr

/-- The load/log pipeline of Layout (src/unnamed/part_006 lines 63-80):
clear the log buffer, then on a successful reply set the availability flag
and append the returned lines in order; on a failure reply append the
server message; on a thrown error append the synthetic error line. -/
def handleLoadData (s : DataState) (r : LoadOutcome) : DataState :=
  let s₀ := clearLogs s
  match r with
  | .success lines => lines.foldl addLog { s₀ with dataLoaded := true }
  | .failed m => addLog s₀ m
  | .thrown m => addLog s₀ ("Error loading data: " ++ m)

/-- One component of a react-query cache key. -/
inductive KeyPart where
  | s (v : String)
  | b (v : Bool)
  | n (v : Nat)
deriving DecidableEq, Repr

/-- A react-query cache key: the ordered list of its components.  Two keys
hit the same cache entry exactly when they are equal componentwise. -/
abbrev QueryKey := List KeyPart

/-- One useQuery configuration: its cache key and its enabled flag. -/
structure QueryConfig where
  key : QueryKey
  enabled : Bool
deriving DecidableEq

/-- The request record sent by getRankedList
(src/unnamed/part_004). -/
structure RankedListRequest where
  equipmentType : String
  country : String
  topK : Nat
  forceHeuristic : Bool
deriving DecidableEq, Repr

/-- The cache key of the ranking query (RankingPage.jsx line 28):
`['ranked_list', { equipmentType, country, forceHeuristic }]`, as a
function of the request it guards.  The key carries no component for
`topK`. -/
def rankedListCacheKey (r : RankedListRequest) : QueryKey :=
  [.s "ranked_list", .s r.equipmentType, .s r.country, .b r.forceHeuristic]

/-- The ranking request issued by RankingPage (line 29):
`getRankedList({ equipmentType, country, topK: 50, forceHeuristic })`. -/
def rankingQueryRequestOf (f : Filters) (forceHeuristic : Bool) :
    RankedListRequest :=
  ⟨f.equipmentType, f.country, 50, forceHeuristic⟩

/-- The ranking query's cache key as a function of the page inputs. -/
def rankingQueryKeyOf (f : Filters) (forceHeuristic : Bool) : QueryKey :=
  rankedListCacheKey (rankingQueryRequestOf f forceHeuristic)

/-- The cache key the specification ascribes to the Ranking Query:
the tuple `(equipmentType, country, forceHeuristic, topK)`.  This
definition follows the specification's words, for comparison with
the key the code constructs. -/
def rankingQueryKeySpec (equipmentType country : String)
    (forceHeuristic : Bool) (topK : Nat) : QueryKey :=
  [.s "ranked_list", .s equipmentType, .s country, .b forceHeuristic,
    .n topK]

/-- The dependent remote queries of the application with their keys and
enabled flags, read off the useQuery configurations of Layout
(regions, countries, equipments, filtered_customers), RankingPage
(model_status, ranked_list) and DashboardPage (dashboard_plants).
Every one of them declares `enabled: dataLoaded`. -/
def dependentQueries (f : Filters) (forceHeuristic dataLoaded : Bool) :
    List QueryConfig :=
  [⟨[.s "regions"], dataLoaded⟩,
   ⟨[.s "countries"], dataLoaded⟩,
   ⟨[.s "equipments"], dataLoaded⟩,
   ⟨[.s "filtered_customers", .s f.region, .s f.country,
       .s f.equipmentType], dataLoaded⟩,
   ⟨[.s "model_status"], dataLoaded⟩,
   ⟨rankingQueryKeyOf f forceHeuristic, dataLoaded⟩,
   ⟨[.s "dashboard_plants", .s f.country, .s f.region, .s f.equipmentType,
       .s f.companyName], dataLoaded⟩]

/-- The customer names carried by a company-catalog response (empty while
the query is unresolved). -/
def customersNames (o : Option (List Customer)) : List String :=
  match o with
  | none => []
  | some cs => cs.map Customer.name

/-- A concrete backend used in the reachability counterexample: one region
option 'EU'; the customers endpoint answers with the single customer
Globex for the initial filters and with an empty customer list once the
region is EU. -/
def demoBackend : Backend :=
  ⟨["EU"], [], [], fun r _ _ =>
    if r = "All" then some [⟨"Globex"⟩] else some []⟩

/-- The intermediate state of the counterexample run: Globex selected
while the catalog still lists it. -/
def midFilters : Filters :=
  ⟨"All", "All", "All", "Globex"⟩

/-- The final state of the counterexample run: the region moved to EU, the
catalog collapsed to just the sentinel, and the stale Globex selection
survives because the enforcer requires at least one derived name. -/
def badFilters : Filters :=
  ⟨"EU", "All", "All", "Globex"⟩

theorem JsonNum.le_iff_toRat (a b : JsonNum) :
    JsonNum.le a b ↔ a.toRat ≤ b.toRat := by
  unfold JsonNum.le JsonNum.toRat
  rw [div_le_div_iff₀ (by positivity) (by positivity)]
  constructor
  · intro h
    exact_mod_cast h
  · intro h
    exact_mod_cast h

theorem lexLeChars_total : ∀ xs ys : List Char,
    lexLeChars xs ys = true ∨ lexLeChars ys xs = true := by
  intro xs
  induction xs with
  | nil => intro ys; left; rfl
  | cons x xs ih =>
      intro ys
      cases ys with
      | nil => right; rfl
      | cons y ys =>
          by_cases hxy : x = y
          · subst hxy
            simp only [lexLeChars, if_pos rfl]
            exact ih ys
          · rcases lt_or_gt_of_ne hxy with h | h
            · left
              simp [lexLeChars, hxy, h]
            · right
              simp [lexLeChars, Ne.symm hxy, h]

theorem lexLeChars_trans : ∀ xs ys zs : List Char,
    lexLeChars xs ys = true → lexLeChars ys zs = true →
    lexLeChars xs zs = true := by
  intro xs
  induction xs with
  | nil => intro ys zs _ _; rfl
  | cons x xs ih =>
      intro ys zs h₁ h₂
      cases ys with
      | nil => simp [lexLeChars] at h₁
      | cons y ys =>
          cases zs with
          | nil => simp [lexLeChars] at h₂
          | cons z zs =>
              by_cases hxy : x = y <;> by_cases hyz : y = z
              · subst hxy; subst hyz
                simp only [lexLeChars, if_pos rfl] at h₁ h₂ ⊢
                exact ih ys zs h₁ h₂
              · subst hxy
                simp only [lexLeChars, if_pos rfl] at h₁
                simp only [lexLeChars, if_neg hyz, decide_eq_true_iff] at h₂
                simp [lexLeChars, hyz, h₂]
              · subst hyz
                simp only [lexLeChars, if_neg hxy, decide_eq_true_iff] at h₁
                simp [lexLeChars, hxy, h₁]
              · simp only [lexLeChars, if_neg hxy, decide_eq_true_iff] at h₁
                simp only [lexLeChars, if_neg hyz, decide_eq_true_iff] at h₂
                have hxz : x < z := lt_trans h₁ h₂
                simp [lexLeChars, ne_of_lt hxz, hxz]

theorem lexLeChars_cons (x y : Char) (xs ys : List Char) :
    lexLeChars (x :: xs) (y :: ys) =
      if x = y then lexLeChars xs ys else decide (x < y) := rfl

theorem lexLeChars_iff_lt_or_eq : ∀ xs ys : List Char,
    lexLeChars xs ys = true ↔ (List.lt xs ys ∨ xs = ys) := by
  intro xs
  induction xs with
  | nil =>
      intro ys
      cases ys with
      | nil => simp [lexLeChars]
      | cons y ys =>
          simp only [lexLeChars, true_iff]
          exact Or.inl (List.lt.nil y ys)
  | cons x xs ih =>
      intro ys
      cases ys with
      | nil =>
          simp only [lexLeChars]
          constructor
          · intro h
            simp at h
          · rintro (h | h)
            · cases h
            · cases h
      | cons y ys =>
          by_cases hxy : x = y
          · subst hxy
            rw [lexLeChars_cons, if_pos rfl, ih]
            constructor
            · rintro (h | rfl)
              · exact Or.inl (List.lt.tail (lt_irrefl x) (lt_irrefl x) h)
              · exact Or.inr rfl
            · rintro (h | h)
              · cases h with
                | head _ _ hlt => exact absurd hlt (lt_irrefl x)
                | tail _ _ htl => exact Or.inl htl
              · rw [List.cons.injEq] at h
                exact Or.inr h.2
          · rw [lexLeChars_cons, if_neg hxy]
            simp only [decide_eq_true_iff]
            constructor
            · intro h
              exact Or.inl (List.lt.head _ _ h)
            · rintro (h | h)
              · cases h with
                | head _ _ hlt => exact hlt
                | tail hnl hnr _ =>
                    exact absurd (le_antisymm (not_lt.mp hnl) (not_lt.mp hnr))
                      (fun he => hxy he.symm)
              · rw [List.cons.injEq] at h
                exact absurd h.1 hxy

instance : IsTotal String (fun a b => strLeb a b = true) :=
  ⟨fun a b => lexLeChars_total a.data b.data⟩

instance : IsTrans String (fun a b => strLeb a b = true) :=
  ⟨fun a b c => lexLeChars_trans a.data b.data c.data⟩

theorem strLeb_ne_imp_lt {a b : String} (h : strLeb a b = true) (hne : a ≠ b) :
    List.lt a.data b.data := by
  rcases (lexLeChars_iff_lt_or_eq a.data b.data).mp h with hlt | heq
  · exact hlt
  · cases a
    cases b
    simp only at heq
    subst heq
    exact absurd rfl hne

instance : IsTotal FeatureEntry (fun a b => JsonNum.le b.impact a.impact) :=
  ⟨fun a b => le_total _ _⟩

instance : IsTrans FeatureEntry (fun a b => JsonNum.le b.impact a.impact) :=
  ⟨fun a b c hab hbc => by
    unfold JsonNum.le at hab hbc ⊢
    have hb : (0 : Int) < 10 ^ b.impact.exp := by positivity
    have key : c.impact.mant * 10 ^ a.impact.exp * 10 ^ b.impact.exp ≤
        a.impact.mant * 10 ^ c.impact.exp * 10 ^ b.impact.exp := by
      nlinarith [mul_le_mul_of_nonneg_right hab
          (le_of_lt (show (0 : Int) < 10 ^ c.impact.exp by positivity)),
        mul_le_mul_of_nonneg_right hbc
          (le_of_lt (show (0 : Int) < 10 ^ a.impact.exp by positivity))]
    exact le_of_mul_le_mul_right key hb⟩

theorem jsSetDedupAux_mem : ∀ (l seen : List String) (x : String),
    x ∈ jsSetDedupAux seen l ↔ x ∈ l ∧ x ∉ seen := by
  intro l
  induction l with
  | nil => intro seen x; simp [jsSetDedupAux]
  | cons y ys ih =>
      intro seen x
      by_cases hy : y ∈ seen
      · simp only [jsSetDedupAux, if_pos hy, ih, List.mem_cons]
        constructor
        · rintro ⟨h₁, h₂⟩
          exact ⟨Or.inr h₁, h₂⟩
        · rintro ⟨h₁ | h₁, h₂⟩
          · subst h₁; exact absurd hy h₂
          · exact ⟨h₁, h₂⟩
      · simp only [jsSetDedupAux, if_neg hy, List.mem_cons, ih]
        constructor
        · rintro (rfl | ⟨h₁, h₂⟩)
          · exact ⟨Or.inl rfl, hy⟩
          · exact ⟨Or.inr h₁, fun hs => h₂ (Or.inr hs)⟩
        · rintro ⟨h₁ | h₁, h₂⟩
          · exact Or.inl h₁
          · by_cases hxy : x = y
            · exact Or.inl hxy
            · exact Or.inr ⟨h₁, by simp [hxy, h₂]⟩

theorem jsSetDedupAux_nodup : ∀ (l seen : List String),
    (jsSetDedupAux seen l).Nodup := by
  intro l
  induction l with
  | nil => intro seen; simp [jsSetDedupAux]
  | cons y ys ih =>
      intro seen
      by_cases hy : y ∈ seen
      · simpa [jsSetDedupAux, if_pos hy] using ih seen
      · simp only [jsSetDedupAux, if_neg hy, List.nodup_cons]
        refine ⟨fun hmem => ?_, ih (y :: seen)⟩
        exact ((jsSetDedupAux_mem ys (y :: seen) y).mp hmem).2 (List.mem_cons_self y seen)

theorem jsSetDedup_mem (l : List String) (x : String) :
    x ∈ jsSetDedup l ↔ x ∈ l := by
  simp [jsSetDedup, jsSetDedupAux_mem]

theorem jsSetDedup_nodup (l : List String) : (jsSetDedup l).Nodup :=
  jsSetDedupAux_nodup l []

theorem companiesFor_cons (B : Backend) (s : Filters) :
    ∃ t, companiesFor B s = "All" :: t := by
  unfold companiesFor activeCompanies
  cases B.customers s.region s.country s.equipmentType with
  | none => exact ⟨[], rfl⟩
  | some cs =>
      dsimp only
      split
      · exact ⟨_, rfl⟩
      · exact ⟨[], rfl⟩

theorem companiesFor_reconcile (B : Backend) (s : Filters) :
    companiesFor B (reconcile B s) = companiesFor B s := by
  unfold reconcile
  split
  · rfl
  · rfl

theorem reconcile_companyName_post (B : Backend) (s : Filters) :
    (reconcile B s).companyName = "All" ∨
    (reconcile B s).companyName ∈ companiesFor B (reconcile B s) ∨
    companiesFor B (reconcile B s) = ["All"] := by
  rw [companiesFor_reconcile]
  unfold reconcile
  split
  · left; rfl
  next h =>
    by_cases h1 : s.companyName = "All"
    · exact Or.inl h1
    by_cases h3 : s.companyName ∈ companiesFor B s
    · exact Or.inr (Or.inl h3)
    have h2 : ¬ (companiesFor B s).length > 1 := fun hb => h ⟨h1, hb, h3⟩
    obtain ⟨t, ht⟩ := companiesFor_cons B s
    refine Or.inr (Or.inr ?_)
    rw [ht] at h2 ⊢
    cases t with
    | nil => rfl
    | cons a as =>
        exfalso
        apply h2
        simp [List.length_cons]

theorem foldl_addLog (lines : List String) : ∀ st : DataState,
    (lines.foldl addLog st).logs = st.logs ++ lines ∧
    (lines.foldl addLog st).dataLoaded = st.dataLoaded := by
  induction lines with
  | nil => intro st; simp
  | cons x xs ih =>
      intro st
      rw [List.foldl_cons]
      rcases ih (addLog st x) with ⟨h1, h2⟩
      constructor
      · rw [h1]
        simp [addLog]
      · exact h2.trans rfl


/-- C2 (confirmed): the effective scoring mode is a pure function of
(modelAvailable, forceHeuristic); it is Heuristic exactly when the model
is unavailable or the override is set, and Model otherwise, with the three
quoted evaluations. -/
theorem effectiveMode_pure : ∀ mA fH : Bool,
    (effectiveMode mA fH = ScoringMode.heuristic ↔ (mA = false ∨ fH = true)) ∧
    (effectiveMode mA fH = ScoringMode.model ↔ (mA = true ∧ fH = false)) ∧
    effectiveMode false false = ScoringMode.heuristic ∧
    effectiveMode true true = ScoringMode.heuristic ∧
    effectiveMode true false = ScoringMode.model := by decide

/-- C7 (confirmed): every dependent remote query of the application
(the three option catalogs, the company catalog, the model status, the
ranking list and the dashboard data) declares enabled = false whenever
the data-availability flag is false, for every filter state and override
value, so none of them issues a request. -/
theorem queries_disabled_without_data : ∀ (f : Filters) (fh : Bool)
    (q : QueryConfig), q ∈ dependentQueries f fh false → q.enabled = false := by
  intro f fh q hq
  simp only [dependentQueries, List.mem_cons, List.not_mem_nil, or_false]
    at hq
  rcases hq with h | h | h | h | h | h | h <;> subst h <;> rfl

/-- Witness for C7: the regions catalog query of an arbitrary concrete
state is disabled. -/
theorem queries_disabled_without_data_witness :
    (QueryConfig.mk [KeyPart.s "regions"] false).enabled = false :=
  queries_disabled_without_data initFilters false _ (by simp [dependentQueries])

/-- C8 (confirmed): when a load invocation completes, on success the
returned log lines are exactly the content of the (cleared) log buffer in
their original order and the availability flag becomes true; on a server
failure a single line carrying the server message is appended and the
flag is unchanged; on a thrown error a single synthetic line carrying the
error detail is appended and the flag is unchanged. -/
theorem handleLoadData_effects : ∀ (s : DataState) (lines : List String)
    (m : String),
    (handleLoadData s (.success lines)).logs = lines ∧
    (handleLoadData s (.success lines)).dataLoaded = true ∧
    (handleLoadData s (.failed m)).logs = [m] ∧
    (handleLoadData s (.failed m)).dataLoaded = s.dataLoaded ∧
    (handleLoadData s (.thrown m)).logs = ["Error loading data: " ++ m] ∧
    (handleLoadData s (.thrown m)).dataLoaded = s.dataLoaded := by
  intro s lines m
  refine ⟨?_, ?_, rfl, rfl, rfl, rfl⟩
  · have h := foldl_addLog lines { clearLogs s with dataLoaded := true }
    simpa [handleLoadData, clearLogs] using h.1
  · have h := foldl_addLog lines { clearLogs s with dataLoaded := true }
    simpa [handleLoadData, clearLogs] using h.2

/-- C9 counterexample: the ranking query's cache key carries no component
for topK — two requests differing only in topK map to the same cache key,
and the key the code builds differs from the four-component tuple the
claim describes. -/
theorem rankingKey_topK_counterexample :
    rankedListCacheKey ⟨"All", "All", 50, false⟩ =
      rankedListCacheKey ⟨"All", "All", 10, false⟩ ∧
    (RankedListRequest.mk "All" "All" 50 false).topK ≠
      (RankedListRequest.mk "All" "All" 10 false).topK ∧
    rankingQueryKeyOf initFilters false ≠
      rankingQueryKeySpec "All" "All" false 50 := by decide

/-- C9 (corrected): the ranking query's cache key is exactly the triple
(equipmentType, country, forceHeuristic) — equality of keys is equality of
those three inputs, so toggling the override refetches while region and
companyName changes never do — and topK is hardcoded to 50 in the request
rather than being a key component. -/
theorem rankingKey_components : ∀ (f g : Filters) (fh gh : Bool),
    (rankingQueryKeyOf f fh = rankingQueryKeyOf g gh ↔
      (f.equipmentType = g.equipmentType ∧ f.country = g.country ∧
        fh = gh)) ∧
    (rankingQueryRequestOf f fh).topK = 50 := by
  intro f g fh gh
  constructor
  · simp [rankingQueryKeyOf, rankedListCacheKey, rankingQueryRequestOf]
  · rfl

/-- C1 counterexample: with the concrete backend demoBackend a state is
reachable (select Globex while offered, then move the region to EU) in
which the company catalog is just ['All'] and the stale selection Globex
is neither 'All' nor a catalog member — the enforcer does not fire because
it requires the catalog to hold more than the sentinel. -/
theorem companyName_invariant_counterexample :
    ReachableFilters demoBackend badFilters ∧
    badFilters.companyName ≠ "All" ∧
    badFilters.companyName ∉ companiesFor demoBackend badFilters := by
  refine ⟨?_, by decide, by decide⟩
  have h1 : filterStep demoBackend initFilters midFilters :=
    ⟨.setCompanyName "Globex",
      show "Globex" ∈ companiesFor demoBackend initFilters by decide,
      by decide⟩
  have h2 : filterStep demoBackend midFilters badFilters :=
    ⟨.setRegion "EU",
      show "EU" ∈ "All" :: demoBackend.regions by decide,
      by decide⟩
  exact Relation.ReflTransGen.head h1
    (Relation.ReflTransGen.head h2 Relation.ReflTransGen.refl)

/-- C1 (corrected): the enforcer overwrites a selection that is neither
'All' nor a catalog member within the same reconciliation pass whenever
the catalog holds at least one derived name besides 'All'; consequently
in every reachable state the selection is 'All', or a member of the
current company catalog, or the catalog has collapsed to just ['All']
(the case the code deliberately leaves untouched). -/
theorem companyName_consistency_amended : ∀ (B : Backend) (s : Filters),
    (s.companyName ≠ "All" → (companiesFor B s).length > 1 →
      s.companyName ∉ companiesFor B s →
      (reconcile B s).companyName = "All") ∧
    (ReachableFilters B s →
      s.companyName = "All" ∨ s.companyName ∈ companiesFor B s ∨
        companiesFor B s = ["All"]) := by
  intro B s
  constructor
  · intro h1 h2 h3
    unfold reconcile
    rw [if_pos ⟨h1, h2, h3⟩]
  · intro hreach
    induction hreach with
    | refl => left; rfl
    | tail _ hstep _ =>
        obtain ⟨a, _, rfl⟩ := hstep
        exact reconcile_companyName_post B _

/-- Witness for C1 amended: the enforcer resets a concrete invalid
selection, and the initial state satisfies the invariant. -/
theorem companyName_consistency_amended_witness :
    (reconcile demoBackend ⟨"All", "All", "All", "Zeta"⟩).companyName =
      "All" ∧
    (initFilters.companyName = "All" ∨
      initFilters.companyName ∈ companiesFor demoBackend initFilters ∨
      companiesFor demoBackend initFilters = ["All"]) :=
  ⟨(companyName_consistency_amended demoBackend
      ⟨"All", "All", "All", "Zeta"⟩).1 (by decide) (by decide) (by decide),
   (companyName_consistency_amended demoBackend initFilters).2
      Relation.ReflTransGen.refl⟩

/-- C10 (confirmed): for every company-catalog response state the company
option list starts with 'All', and the entries after 'All' are strictly
sorted in ascending lexicographic order and carry exactly the customer
names of the response — so the list is ['All'] precisely while the query
is unresolved or the customer list is empty, and otherwise 'All' is
followed by the deduplicated, ascending-sorted names. -/
theorem activeCompanies_characterization : ∀ o : Option (List Customer),
    ∃ t, activeCompanies o = "All" :: t ∧
      List.Sorted (fun a b : String => List.lt a.data b.data) t ∧
      ∀ x, x ∈ t ↔ x ∈ customersNames o := by
  intro o
  cases o with
  | none =>
      exact ⟨[], rfl, List.sorted_nil, by simp [customersNames]⟩
  | some cs =>
      by_cases h : cs.length > 0
      · refine ⟨List.insertionSort (fun a b => strLeb a b = true)
          (jsSetDedup (cs.map Customer.name)), ?_, ?_, ?_⟩
        · simp [activeCompanies, h]
        · have hsorted :
              List.Sorted (fun a b => strLeb a b = true)
                (List.insertionSort (fun a b => strLeb a b = true)
                  (jsSetDedup (cs.map Customer.name))) :=
            List.sorted_insertionSort _ _
          have hnodup :
              (List.insertionSort (fun a b => strLeb a b = true)
                (jsSetDedup (cs.map Customer.name))).Nodup :=
            (List.perm_insertionSort _ _).nodup_iff.mpr
              (jsSetDedup_nodup _)
          exact (hsorted.and hnodup).imp
            (fun hab => strLeb_ne_imp_lt hab.1 hab.2)
        · intro x
          rw [List.mem_insertionSort, jsSetDedup_mem]
          simp [customersNames]
      · have hcs : cs = [] := List.length_eq_zero.mp (Nat.le_zero.mp (not_lt.mp h))
        subst hcs
        exact ⟨[], rfl, List.sorted_nil, by simp [customersNames]⟩

/-- C3 counterexample: the empty payload is handled by the flat branch,
whose split yields one empty token, so the normalizer returns a single
entry with empty name rather than the empty list the claim requires. -/
theorem normalizer_empty_counterexample :
    normalizeTopFeatures (some "") ≠ [] ∧
    normalizeTopFeatures (some "") = [⟨"", ⟨0, 0⟩⟩] := by decide

/-- C3 (corrected): an absent payload, and a payload that begins with the
brace yet fails to parse, yield the empty driver list without any
exception (the normalizer is a total function); the empty payload however
falls into the flat branch and yields one entry with empty name and zero
impact. -/
theorem normalizer_malformed_amended :
    (∀ s : String, startsWithBrace s = true → parseJsonObject s = none →
        normalizeTopFeatures (some s) = []) ∧
    normalizeTopFeatures none = [] ∧
    normalizeTopFeatures (some "\x7bnot json") = [] ∧
    normalizeTopFeatures (some "") = [⟨"", ⟨0, 0⟩⟩] := by
  refine ⟨?_, rfl, by decide, by decide⟩
  intro s hb hp
  simp [normalizeTopFeatures, hb, hp]

/-- Witness for C3 amended: the quoted malformed payload yields the empty
list. -/
theorem normalizer_malformed_amended_witness :
    normalizeTopFeatures (some "\x7bnot json") = [] :=
  normalizer_malformed_amended.1 "\x7bnot json" (by decide) (by decide)

/-- C4 (confirmed): on every payload classified structured and parsed, the
normalizer yields at most five entries, sorted by descending impact, each
carrying a (name, impact) member of the parsed object; on the quoted
six-key example it yields exactly load, temp, age, x, y with z excluded,
the impacts reading 0.9, 0.8, 0.3, 0.1 and 0.05. -/
theorem structured_sorted_top5 :
    (∀ (s : String) (pairs : List (String × JsonNum)),
        startsWithBrace s = true → parseJsonObject s = some pairs →
        (normalizeTopFeatures (some s)).length ≤ 5 ∧
        List.Sorted
          (fun a b : FeatureEntry => b.impact.toRat ≤ a.impact.toRat)
          (normalizeTopFeatures (some s)) ∧
        ∀ e ∈ normalizeTopFeatures (some s), (e.name, e.impact) ∈ pairs) ∧
    normalizeTopFeatures
        (some "\x7b\"temp\":0.8,\"age\":0.3,\"load\":0.9,\"x\":0.1,\"y\":0.05,\"z\":0.01\x7d") =
      [⟨"load", ⟨9, 1⟩⟩, ⟨"temp", ⟨8, 1⟩⟩, ⟨"age", ⟨3, 1⟩⟩, ⟨"x", ⟨1, 1⟩⟩,
        ⟨"y", ⟨5, 2⟩⟩] ∧
    (JsonNum.mk 9 1).toRat = 9/10 ∧ (JsonNum.mk 8 1).toRat = 8/10 ∧
    (JsonNum.mk 3 1).toRat = 3/10 ∧ (JsonNum.mk 1 1).toRat = 1/10 ∧
    (JsonNum.mk 5 2).toRat = 1/20 := by
  refine ⟨?_, by decide, ?_, ?_, ?_, ?_, ?_⟩
  · intro s pairs hb hp
    have hrw : normalizeTopFeatures (some s) =
        (sortByImpactDesc (pairs.map fun p => ⟨p.1, p.2⟩)).take 5 := by
      simp [normalizeTopFeatures, hb, hp]
    rw [hrw]
    refine ⟨?_, ?_, ?_⟩
    · rw [List.length_take]
      exact min_le_left _ _
    · have hs : List.Sorted
          (fun a b : FeatureEntry => JsonNum.le b.impact a.impact)
          (sortByImpactDesc (pairs.map fun p => ⟨p.1, p.2⟩)) :=
        List.sorted_insertionSort _ _
      have hs5 := List.Pairwise.sublist (List.take_sublist 5 _) hs
      exact hs5.imp (fun hab => (JsonNum.le_iff_toRat _ _).mp hab)
    · intro e he
      have he2 : e ∈ sortByImpactDesc (pairs.map fun p => ⟨p.1, p.2⟩) :=
        List.mem_of_mem_take he
      rw [sortByImpactDesc, List.mem_insertionSort] at he2
      obtain ⟨p, hp2, rfl⟩ := List.mem_map.mp he2
      simpa using hp2
  · norm_num [JsonNum.toRat]
  · norm_num [JsonNum.toRat]
  · norm_num [JsonNum.toRat]
  · norm_num [JsonNum.toRat]
  · norm_num [JsonNum.toRat]

/-- Witness for C4: the general part applied to the quoted example. -/
theorem structured_sorted_top5_witness :
    (normalizeTopFeatures
        (some "\x7b\"temp\":0.8,\"age\":0.3,\"load\":0.9,\"x\":0.1,\"y\":0.05,\"z\":0.01\x7d")).length ≤
      5 :=
  (structured_sorted_top5.1
    "\x7b\"temp\":0.8,\"age\":0.3,\"load\":0.9,\"x\":0.1,\"y\":0.05,\"z\":0.01\x7d"
    [("temp", ⟨8, 1⟩), ("age", ⟨3, 1⟩), ("load", ⟨9, 1⟩), ("x", ⟨1, 1⟩),
      ("y", ⟨5, 2⟩), ("z", ⟨1, 2⟩)]
    (by decide) (by decide)).1

/-- C5 counterexample: a payload whose trimmed text begins with the brace
but whose raw text begins with a space is classified flat by the code and
handed to the comma-split branch, against the claim's trimmed-text
detection rule. -/
theorem classifier_trim_counterexample :
    startsWithBrace " \x7b\"a\":1\x7d" = false ∧
    startsWithBrace (String.mk (jsTrim " \x7b\"a\":1\x7d".data)) = true ∧
    normalizeTopFeatures (some " \x7b\"a\":1\x7d") =
      [⟨"\x7b\"a\":1\x7d", ⟨0, 0⟩⟩] := by decide

/-- C5 (corrected): the classifier marks a payload structured exactly when
its raw, untrimmed text begins with the brace character; every other
string payload is treated as the flat-list encoding. -/
theorem classifier_untrimmed : ∀ s : String,
    startsWithBrace s = true ↔ s.data.head? = some '{' := by
  intro s
  cases s with
  | mk data =>
      cases data with
      | nil => simp [startsWithBrace]
      | cons c cs => simp [startsWithBrace]

/-- C6 (confirmed): every payload classified flat is split on commas, each
token trimmed and emitted in original order with zero impact, one entry
per token with no truncation; the quoted example yields its three entries
in order, and a seven-token payload keeps all seven entries. -/
theorem flat_split_trim :
    (∀ s : String, startsWithBrace s = false →
        normalizeTopFeatures (some s) =
          (jsSplitComma s.data).map
            (fun tok => ⟨String.mk (jsTrim tok), ⟨0, 0⟩⟩) ∧
        (normalizeTopFeatures (some s)).length =
          (jsSplitComma s.data).length ∧
        ∀ e ∈ normalizeTopFeatures (some s), e.impact = ⟨0, 0⟩ ∧
          e.impact.toRat = 0) ∧
    normalizeTopFeatures (some "old_fleet, high_usage, no_contract") =
      [⟨"old_fleet", ⟨0, 0⟩⟩, ⟨"high_usage", ⟨0, 0⟩⟩,
        ⟨"no_contract", ⟨0, 0⟩⟩] ∧
    (normalizeTopFeatures (some "a,b,c,d,e,f,g")).length = 7 := by
  refine ⟨?_, by decide, by decide⟩
  intro s hb
  have hrw : normalizeTopFeatures (some s) =
      (jsSplitComma s.data).map
        (fun tok => ⟨String.mk (jsTrim tok), ⟨0, 0⟩⟩) := by
    simp [normalizeTopFeatures, hb]
  refine ⟨hrw, by rw [hrw]; simp, ?_⟩
  intro e he
  rw [hrw] at he
  obtain ⟨tok, _, rfl⟩ := List.mem_map.mp he
  exact ⟨rfl, by simp [JsonNum.toRat]⟩

/-- Witness for C6: the general part applied to the quoted example. -/
theorem flat_split_trim_witness :
    normalizeTopFeatures (some "old_fleet, high_usage, no_contract") =
      (jsSplitComma "old_fleet, high_usage, no_contract".data).map
        (fun tok => ⟨String.mk (jsTrim tok), ⟨0, 0⟩⟩) :=
  (flat_split_trim.1 "old_fleet, high_usage, no_contract" (by decide)).1
